import Mathlib

/-!
# BriefKAsten: verification of the aggregation and routing layer

Shallow embedding of the merger/splitter/cleaner codecs, the
chunk-by-embedded-size view, the indirection schemes and the two-wave
termination protocol of the BriefKAsten message-passing library, together
with proofs of the specified properties.

Modelling conventions:
* buffer elements (`buffer_type`), ranks (`PEID`) and tags are modelled as
  unbounded `Int`; the C++ `static_cast<std::size_t>` occurring in the
  chunk iterator is modelled exactly as reduction modulo `2 ^ 64` (64-bit
  `size_t`), so that negative embedded sizes wrap to huge values as in the
  source;
* a logical message element (scalar or tuple) is represented by the list
  of its flattened fields, in declaration order: a scalar `v` is `[v]`, a
  pair `(a, b)` is `[a, b]`.  `detail::element_cardinality` is the common
  length `elemSize` of those lists;
* lazy views (`chunk_by_embedded_size_view`, `views::transform`,
  `views::split`) are materialised as the finite lists of values they
  yield.
-/

/-- The C++ cast `static_cast<std::size_t>(v)` applied to a signed buffer
element, for a 64-bit `size_t`: reduction modulo `2 ^ 64`. -/
def castToSizeT (v : Int) : Nat := (v % (2 : Int) ^ 64).toNat

/-- Fuelled loop of `briefkasten::chunk_iterator`
(`src/briefkasten/detail/view_adaptors.hpp`, lines 35-65), expressed on the
suffix of the buffer that starts at the iterator position `current_`.
At each position: if `current_ + size_offset_ >= end_` the iterator
dereferences to the empty chunk and jumps to `end_` (the `[[]]` branch);
otherwise the chunk spans `size_offset_ + 1 + chunk_size` elements,
truncated at `end_`, and the iterator advances past it.  Every step
consumes at least one element, so a fuel equal to the buffer length makes
the fuelled recursion exhaust the iteration exactly. -/
def chunksBESAux (off : Nat) : Nat → List Int → List (List Int)
  | _, [] => []
  | 0, _ :: _ => []
  | fuel + 1, x :: rest =>
      if off < (x :: rest).length then
        (x :: rest).take (min (x :: rest).length (off + 1 + castToSizeT ((x :: rest).getD off 0))) ::
          chunksBESAux off fuel
            ((x :: rest).drop (min (x :: rest).length (off + 1 + castToSizeT ((x :: rest).getD off 0))))
      else [[]]

/-- The list of chunks produced by iterating
`buffer | chunk_by_embedded_size(size_offset)` from begin to end. -/
def chunksBES (off : Nat) (buf : List Int) : List (List Int) :=
  chunksBESAux off buf.length buf

lemma chunksBESAux_nil (off fuel : Nat) : chunksBESAux off fuel [] = [] := by
  cases fuel <;> rfl

lemma chunksBESAux_cons (off fuel : Nat) (x : Int) (rest : List Int) :
    chunksBESAux off (fuel + 1) (x :: rest) =
      if off < (x :: rest).length then
        (x :: rest).take (min (x :: rest).length (off + 1 + castToSizeT ((x :: rest).getD off 0))) ::
          chunksBESAux off fuel
            ((x :: rest).drop (min (x :: rest).length (off + 1 + castToSizeT ((x :: rest).getD off 0))))
      else [[]] := rfl

lemma chunksBESAux_fuel (off : Nat) :
    ∀ fuel, ∀ buf : List Int, buf.length ≤ fuel →
      chunksBESAux off fuel buf = chunksBESAux off buf.length buf := by
  intro fuel
  induction fuel using Nat.strong_induction_on with
  | _ fuel ih =>
    intro buf hlen
    cases buf with
    | nil => simp [chunksBESAux_nil]
    | cons x rest =>
      cases fuel with
      | zero => simp only [List.length_cons] at hlen; omega
      | succ n =>
        simp only [List.length_cons] at hlen
        have hgoal : (x :: rest).length = rest.length + 1 := by simp
        rw [hgoal, chunksBESAux_cons, chunksBESAux_cons]
        by_cases hoff : off < (x :: rest).length
        · rw [if_pos hoff, if_pos hoff]
          congr 1
          have hstop1 : 1 ≤ min (x :: rest).length (off + 1 + castToSizeT ((x :: rest).getD off 0)) := by
            have h1 : 1 ≤ (x :: rest).length := by simp
            omega
          have hd : ((x :: rest).drop
              (min (x :: rest).length (off + 1 + castToSizeT ((x :: rest).getD off 0)))).length
                ≤ rest.length := by
            rw [List.length_drop]
            simp only [List.length_cons]
            omega
          rw [ih n (by omega) _ (le_trans hd (by omega)),
            ih rest.length (by omega) _ hd]
        · rw [if_neg hoff, if_neg hoff]

/-- Step equation of the chunk view: when the size field is in bounds, one
chunk of `min len (off + 1 + size)` elements is produced and iteration
continues on the remaining suffix. -/
lemma chunksBES_step (off : Nat) (buf : List Int) (h : off < buf.length) :
    chunksBES off buf =
      buf.take (min buf.length (off + 1 + castToSizeT (buf.getD off 0))) ::
        chunksBES off (buf.drop (min buf.length (off + 1 + castToSizeT (buf.getD off 0)))) := by
  cases buf with
  | nil => simp at h
  | cons x rest =>
      have hstop1 : 1 ≤ min (x :: rest).length (off + 1 + castToSizeT ((x :: rest).getD off 0)) := by
        have h1 : 1 ≤ (x :: rest).length := by simp
        omega
      have hd : ((x :: rest).drop
          (min (x :: rest).length (off + 1 + castToSizeT ((x :: rest).getD off 0)))).length
            ≤ rest.length := by
        rw [List.length_drop]
        simp only [List.length_cons]
        omega
      have hgoal : (x :: rest).length = rest.length + 1 := by simp
      unfold chunksBES
      rw [hgoal, chunksBESAux_cons, if_pos (by simpa using h)]
      congr 1
      exact chunksBESAux_fuel off rest.length _ hd

/-- Step equation of the chunk view at the boundary: a nonempty buffer whose
size field would lie at or past the end yields one empty chunk. -/
lemma chunksBES_short (off : Nat) (buf : List Int) (hne : buf ≠ []) (h : buf.length ≤ off) :
    chunksBES off buf = [[]] := by
  cases buf with
  | nil => exact absurd rfl hne
  | cons x rest =>
      simp only [List.length_cons] at h
      have hgoal : (x :: rest).length = rest.length + 1 := by simp
      unfold chunksBES
      rw [hgoal, chunksBESAux_cons, if_neg (by simp only [List.length_cons]; omega)]

lemma chunksBES_nil (off : Nat) : chunksBES off [] = [] := rfl

/-- C7: Chunking `[3, 1, 1, 1, 2, 42, 42, 5, 8, 8, 8, 8, 8]` by embedded
size with size offset 0 and dropping each chunk's size prefix yields exactly
`[1,1,1]`, `[42,42]`, `[8,8,8,8,8]`, in that order. -/
theorem chunk_by_embedded_size_unit_test :
    (chunksBES 0 [3, 1, 1, 1, 2, 42, 42, 5, 8, 8, 8, 8, 8]).map (fun c => c.drop 1) =
      [[1, 1, 1], [42, 42], [8, 8, 8, 8, 8]] := by decide

lemma chunksBESAux_zero (off : Nat) (buf : List Int) : chunksBESAux off 0 buf = [] := by
  cases buf <;> rfl

lemma chunksBESAux_within (off : Nat) :
    ∀ fuel, ∀ buf : List Int, ∀ c ∈ chunksBESAux off fuel buf,
      ∃ pre post, buf = pre ++ c ++ post := by
  intro fuel
  induction fuel with
  | zero =>
      intro buf c hc
      rw [chunksBESAux_zero] at hc
      simp at hc
  | succ n ih =>
      intro buf c hc
      cases buf with
      | nil => rw [chunksBESAux_nil] at hc; simp at hc
      | cons x rest =>
          rw [chunksBESAux_cons] at hc
          by_cases hoff : off < (x :: rest).length
          · rw [if_pos hoff] at hc
            rcases List.mem_cons.mp hc with h1 | h2
            · refine ⟨[], (x :: rest).drop
                (min (x :: rest).length (off + 1 + castToSizeT ((x :: rest).getD off 0))), ?_⟩
              rw [h1]
              simp [List.take_append_drop]
            · obtain ⟨pre, post, hp⟩ := ih _ c h2
              refine ⟨(x :: rest).take
                (min (x :: rest).length (off + 1 + castToSizeT ((x :: rest).getD off 0))) ++ pre,
                post, ?_⟩
              conv_lhs => rw [← List.take_append_drop
                (min (x :: rest).length (off + 1 + castToSizeT ((x :: rest).getD off 0))) (x :: rest)]
              rw [hp]
              simp
          · rw [if_neg hoff] at hc
            simp at hc
            subst hc
            exact ⟨[], x :: rest, rfl⟩

lemma chunksBESAux_count (off : Nat) :
    ∀ fuel, ∀ buf : List Int, (chunksBESAux off fuel buf).length ≤ buf.length + 1 := by
  intro fuel
  induction fuel with
  | zero => intro buf; rw [chunksBESAux_zero]; simp
  | succ n ih =>
      intro buf
      cases buf with
      | nil => rw [chunksBESAux_nil]; simp
      | cons x rest =>
          rw [chunksBESAux_cons]
          by_cases hoff : off < (x :: rest).length
          · rw [if_pos hoff]
            have hstop1 : 1 ≤ min (x :: rest).length (off + 1 + castToSizeT ((x :: rest).getD off 0)) := by
              have h1 : 1 ≤ (x :: rest).length := by simp
              omega
            have hrec := ih ((x :: rest).drop
              (min (x :: rest).length (off + 1 + castToSizeT ((x :: rest).getD off 0))))
            rw [List.length_drop] at hrec
            simp only [List.length_cons] at hrec ⊢
            omega
          · rw [if_neg hoff]
            simp

/-- C8: iterating `chunk_by_embedded_size` over any finite buffer produces
finitely many chunks (at most `length + 1`), every chunk is a contiguous
subsegment of the buffer, a chunk whose embedded size would extend past the
end of the buffer is truncated at the buffer's end, and when the size field
lies at or past the end the view yields the empty chunk. -/
theorem chunk_by_embedded_size_safe (off : Nat) (buf : List Int)
    (hnn : ∀ x ∈ buf, 0 ≤ x) :
    (∀ c ∈ chunksBES off buf, ∃ pre post, buf = pre ++ c ++ post) ∧
    (chunksBES off buf).length ≤ buf.length + 1 ∧
    (∀ h : off < buf.length,
      buf.length < off + 1 + castToSizeT (buf.getD off 0) → chunksBES off buf = [buf]) ∧
    (buf ≠ [] → buf.length ≤ off → chunksBES off buf = [[]]) := by
  refine ⟨fun c hc => chunksBESAux_within off _ buf c hc,
    chunksBESAux_count off _ buf, ?_, chunksBES_short off buf⟩
  intro h htr
  rw [chunksBES_step off buf h]
  have hmin : min buf.length (off + 1 + castToSizeT (buf.getD off 0)) = buf.length := by omega
  rw [hmin, List.take_length, List.drop_length, chunksBES_nil]

/-- Witness for C8 at `off = 0`, `buf = [5, 1]`: the embedded size 5 extends
past the end, so the single chunk is the whole (truncated) buffer. -/
theorem chunk_by_embedded_size_safe_witness :
    (chunksBES 0 [5, 1]).length ≤ 3 ∧ chunksBES 0 [5, 1] = [[5, 1]] := by
  have h := chunk_by_embedded_size_safe 0 [5, 1] (by decide)
  exact ⟨h.2.1, h.2.2.1 (by decide) (by decide)⟩

/-- The compile-time metadata field set `EnvelopeMetadata<meta...>` of
`src/briefkasten/envelope_aggregators.hpp` (lines 103-121): which of the
four `EnvelopeMetadataField` values {size, tag, sender, receiver} are
on-wire.  Duplicates are ruled out statically in the source, so a set of
four booleans is a faithful model. -/
structure EnvelopeMetadata where
  hasSize : Bool
  hasSender : Bool
  hasReceiver : Bool
  hasTag : Bool
  deriving DecidableEq

/-- `metadata::size`: the number of metadata fields present. -/
def EnvelopeMetadata.size (m : EnvelopeMetadata) : Nat :=
  (if m.hasSize then 1 else 0) + (if m.hasSender then 1 else 0) +
    (if m.hasReceiver then 1 else 0) + (if m.hasTag then 1 else 0)

/-- `MessageEnvelope`: payload range, sender, receiver, tag.  The payload is
a list of logical message elements, each given by the list of its flattened
fields (`detail::element_cardinality` many, see the file header). -/
structure MessageEnvelope where
  message : List (List Int)
  sender : Int
  receiver : Int
  tag : Int
  deriving DecidableEq

/-- The record `EnvelopeSerializationMerger::operator()` appends for one
envelope (`src/briefkasten/envelope_aggregators.hpp`, lines 141-177): the
metadata fields present, written in the fixed order size, sender, receiver,
tag, followed by the flattened message.  The size field holds
`message.size() * elem_size + metadata::size - 1`: the element count of
everything after the size field up to the next record. -/
def envSerRecord (m : EnvelopeMetadata) (elemSize : Nat) (e : MessageEnvelope) : List Int :=
  (if m.hasSize then [(e.message.length * elemSize + m.size - 1 : Int)] else []) ++
    (if m.hasSender then [e.sender] else []) ++
    (if m.hasReceiver then [e.receiver] else []) ++
    (if m.hasTag then [e.tag] else []) ++
    e.message.flatten

/-- `EnvelopeSerializationMerger::operator()(buffer, dst, self, envelope)`:
appends the record for `envelope` to `buffer`. -/
def envSerMerge (m : EnvelopeMetadata) (elemSize : Nat) (buffer : List Int)
    (e : MessageEnvelope) : List Int :=
  buffer ++ envSerRecord m elemSize e

/-- `EnvelopeSerializationMerger::estimate_new_buffer_size`
(`src/briefkasten/envelope_aggregators.hpp`, lines 179-186):
`buffer.size() + envelope.message.size() * elem_size + metadata::size`. -/
def envSerEstimate (m : EnvelopeMetadata) (elemSize : Nat) (buffer : List Int)
    (e : MessageEnvelope) : Nat :=
  buffer.length + e.message.length * elemSize + m.size

/-- Fuelled loop of `std::views::chunk(n)`: splits a list into consecutive
groups of `n` elements, the last group possibly shorter.  The fuel bounds
the recursion; a fuel equal to the list length is exact for `n ≥ 1`. -/
def groupsOfAux (n : Nat) : Nat → List Int → List (List Int)
  | _, [] => []
  | 0, _ :: _ => []
  | fuel + 1, x :: rest => (x :: rest).take n :: groupsOfAux n fuel ((x :: rest).drop n)

/-- `std::views::chunk(n)` materialised (`n = 0` is invalid for the C++
adaptor and yields the empty list here). -/
def groupsOf (n : Nat) (xs : List Int) : List (List Int) :=
  if n = 0 then [] else groupsOfAux n xs.length xs

/-- The per-chunk body of `EnvelopeSerializationSplitter::operator()`
(`src/briefkasten/envelope_aggregators.hpp`, lines 212-240): reads the
metadata fields present after the size field in the order sender, receiver,
tag (defaults: the transport origin of the buffer, the local rank, and 0),
drops the metadata, and reconstructs message elements, grouping the payload
by the element cardinality when it exceeds one. -/
def envSerSplitChunk (m : EnvelopeMetadata) (elemSize : Nat) (bufferOrigin myRank : Int)
    (chunk : List Int) : MessageEnvelope :=
  let i0 : Nat := if m.hasSize then 1 else 0
  let sender : Int := if m.hasSender then chunk.getD i0 0 else bufferOrigin
  let i1 : Nat := if m.hasSender then i0 + 1 else i0
  let receiver : Int := if m.hasReceiver then chunk.getD i1 0 else myRank
  let i2 : Nat := if m.hasReceiver then i1 + 1 else i1
  let tag : Int := if m.hasTag then chunk.getD i2 0 else 0
  let i3 : Nat := if m.hasTag then i2 + 1 else i2
  let messageData := chunk.drop i3
  let message : List (List Int) :=
    if elemSize > 1 then groupsOf elemSize messageData
    else messageData.map (fun v => [v])
  ⟨message, sender, receiver, tag⟩

/-- `EnvelopeSerializationSplitter::operator()(buffer, origin, my_rank)`:
chunk the buffer (by embedded size at offset 0 when the size field is
present, else into fixed-size groups of
`message_size * element_cardinality + metadata::size`), then decode each
chunk into an envelope.  `msgSize` is the compile-time `message_size`
constant used when the size field is absent. -/
def envSerSplit (m : EnvelopeMetadata) (elemSize msgSize : Nat) (bufferOrigin myRank : Int)
    (buffer : List Int) : List MessageEnvelope :=
  (if m.hasSize then chunksBES 0 buffer
   else groupsOf (msgSize * elemSize + m.size) buffer).map
    (envSerSplitChunk m elemSize bufferOrigin myRank)

lemma castToSizeT_eq (v : Int) (h0 : 0 ≤ v) (h1 : v < 2 ^ 64) : castToSizeT v = v.toNat := by
  unfold castToSizeT
  rw [Int.emod_eq_of_lt h0 h1]

lemma foldl_merge_flatten {α : Type} (g : List Int → α → List Int) (f : α → List Int)
    (hg : ∀ b e, g b e = b ++ f e) (msgs : List α) :
    ∀ init : List Int, msgs.foldl g init = init ++ (msgs.map f).flatten := by
  induction msgs with
  | nil => intro init; simp
  | cons a l ih =>
      intro init
      simp only [List.foldl_cons, List.map_cons, List.flatten_cons, hg]
      rw [ih]
      simp

lemma flatten_length_uniform (k : Nat) (l : List (List Int)) (h : ∀ x ∈ l, x.length = k) :
    l.flatten.length = l.length * k := by
  induction l with
  | nil => simp
  | cons a t ih =>
      simp only [List.flatten_cons, List.length_append, List.length_cons]
      rw [h a (by simp), ih (fun x hx => h x (by simp [hx]))]
      ring

lemma groupsOfAux_nil (n fuel : Nat) : groupsOfAux n fuel [] = [] := by
  cases fuel <;> rfl

lemma groupsOfAux_cons (n fuel : Nat) (x : Int) (rest : List Int) :
    groupsOfAux n (fuel + 1) (x :: rest) =
      (x :: rest).take n :: groupsOfAux n fuel ((x :: rest).drop n) := rfl

lemma groupsOfAux_fuel (n : Nat) (hn : 1 ≤ n) :
    ∀ fuel, ∀ buf : List Int, buf.length ≤ fuel →
      groupsOfAux n fuel buf = groupsOfAux n buf.length buf := by
  intro fuel
  induction fuel using Nat.strong_induction_on with
  | _ fuel ih =>
    intro buf hlen
    cases buf with
    | nil => simp [groupsOfAux_nil]
    | cons x rest =>
      cases fuel with
      | zero => simp only [List.length_cons] at hlen; omega
      | succ f =>
        simp only [List.length_cons] at hlen
        have hgoal : (x :: rest).length = rest.length + 1 := by simp
        rw [hgoal, groupsOfAux_cons, groupsOfAux_cons]
        congr 1
        have hd : ((x :: rest).drop n).length ≤ rest.length := by
          rw [List.length_drop]
          simp only [List.length_cons]
          omega
        rw [ih f (by omega) _ (le_trans hd (by omega)),
          ih rest.length (by omega) _ hd]

lemma groupsOf_cons (n : Nat) (hn : 1 ≤ n) (xs : List Int) (hne : xs ≠ []) :
    groupsOf n xs = xs.take n :: groupsOf n (xs.drop n) := by
  cases xs with
  | nil => exact absurd rfl hne
  | cons x rest =>
      unfold groupsOf
      rw [if_neg (by omega), if_neg (by omega)]
      have hgoal : (x :: rest).length = rest.length + 1 := by simp
      rw [hgoal, groupsOfAux_cons]
      congr 1
      have hd : ((x :: rest).drop n).length ≤ rest.length := by
        rw [List.length_drop]
        simp only [List.length_cons]
        omega
      exact groupsOfAux_fuel n hn rest.length _ hd

lemma groupsOf_flatten (k : Nat) (hk : 1 ≤ k) (l : List (List Int))
    (h : ∀ x ∈ l, x.length = k) : groupsOf k l.flatten = l := by
  induction l with
  | nil => simp [groupsOf, groupsOfAux_nil]
  | cons a t ih =>
      have ha : a.length = k := h a (by simp)
      have hane : a ≠ [] := by
        intro hcon
        rw [hcon] at ha
        simp at ha
        omega
      rw [List.flatten_cons,
        groupsOf_cons k hk _ (by simp [List.append_eq_nil, hane]),
        ← ha, List.take_left, List.drop_left]
      rw [ha]
      rw [ih (fun x hx => h x (by simp [hx]))]

lemma flatten_map_singleton_of_len_one (l : List (List Int))
    (h : ∀ x ∈ l, x.length = 1) : l.flatten.map (fun v => [v]) = l := by
  induction l with
  | nil => simp
  | cons a t ih =>
      obtain ⟨v, hv⟩ := List.length_eq_one.mp (h a (by simp))
      subst hv
      simp only [List.flatten_cons, List.cons_append, List.nil_append, List.map_cons]
      rw [ih (fun x hx => h x (by simp [hx]))]

lemma splitPayload_flatten (k : Nat) (hk : 1 ≤ k) (l : List (List Int))
    (h : ∀ x ∈ l, x.length = k) :
    (if k > 1 then groupsOf k l.flatten else l.flatten.map (fun v => [v])) = l := by
  by_cases h1 : 1 < k
  · rw [if_pos h1]
    exact groupsOf_flatten k (by omega) l h
  · rw [if_neg h1]
    have hkeq : k = 1 := by omega
    subst hkeq
    exact flatten_map_singleton_of_len_one l h

lemma EnvelopeMetadata.one_le_size (m : EnvelopeMetadata) (hs : m.hasSize = true) :
    1 ≤ m.size := by
  unfold EnvelopeMetadata.size
  rw [hs]
  simp only [if_true]
  omega

lemma envSerRecord_length (m : EnvelopeMetadata) (k : Nat) (e : MessageEnvelope)
    (hlen : ∀ x ∈ e.message, x.length = k) :
    (envSerRecord m k e).length = m.size + e.message.length * k := by
  unfold envSerRecord EnvelopeMetadata.size
  rcases m with ⟨s1, s2, s3, s4⟩
  cases s1 <;> cases s2 <;> cases s3 <;> cases s4 <;>
    simp [flatten_length_uniform k _ hlen] <;> omega

lemma envSerRecord_head (m : EnvelopeMetadata) (k : Nat) (e : MessageEnvelope)
    (hs : m.hasSize = true) :
    (envSerRecord m k e).getD 0 0 = (e.message.length * k + m.size : Int) - 1 := by
  unfold envSerRecord
  rw [hs]
  simp only [if_true, List.cons_append, List.getD_cons_zero]

lemma chunksBES_flatten_records (recs : List (List Int))
    (h : ∀ r ∈ recs, 1 ≤ r.length ∧ r.length ≤ 2 ^ 64 ∧
      r.getD 0 0 = (r.length : Int) - 1) :
    chunksBES 0 recs.flatten = recs := by
  induction recs with
  | nil => simp [chunksBES_nil]
  | cons r rest ih =>
      obtain ⟨h1, h2, h3⟩ := h r (by simp)
      have hne : r ≠ [] := by
        intro hcon
        rw [hcon] at h1
        simp at h1
      rw [List.flatten_cons]
      have hlen : 0 < (r ++ rest.flatten).length := by
        rw [List.length_append]
        omega
      rw [chunksBES_step 0 _ hlen]
      have hgetD : (r ++ rest.flatten).getD 0 0 = r.getD 0 0 :=
        List.getD_append r rest.flatten 0 0 (by omega)
      have hcast : castToSizeT ((r ++ rest.flatten).getD 0 0) = r.length - 1 := by
        rw [hgetD, h3, castToSizeT_eq _ (by omega) (by push_cast; omega)]
        omega
      have hstop : min (r ++ rest.flatten).length
          (0 + 1 + castToSizeT ((r ++ rest.flatten).getD 0 0)) = r.length := by
        rw [hcast, List.length_append]
        omega
      rw [hstop, List.take_left, List.drop_left]
      rw [ih (fun x hx => h x (by simp [hx]))]

lemma envSerSplitChunk_record (m : EnvelopeMetadata) (k : Nat) (origin myRank : Int)
    (e : MessageEnvelope) (hs : m.hasSize = true) (hr : m.hasReceiver = true)
    (hk : 1 ≤ k) (hlen : ∀ x ∈ e.message, x.length = k) :
    (envSerSplitChunk m k origin myRank (envSerRecord m k e)).message = e.message ∧
    (envSerSplitChunk m k origin myRank (envSerRecord m k e)).receiver = e.receiver := by
  rcases m with ⟨s1, s2, s3, s4⟩
  simp only at hs hr
  subst hs
  subst hr
  cases s2 <;> cases s4 <;>
    simp [envSerSplitChunk, envSerRecord, -List.map_flatten,
      splitPayload_flatten k hk e.message hlen]

/-- C1: serializing any sequence of envelopes in order into an empty buffer
with `EnvelopeSerializationMerger` and splitting the buffer with the
matching `EnvelopeSerializationSplitter` (metadata containing the size and
receiver fields, message values representable in the buffer element type,
record sizes representable in `size_t`) yields exactly the same number of
envelopes with the same payload sequences and the same receivers, in the
same order. -/
theorem envelope_serialization_roundtrip (m : EnvelopeMetadata) (elemSize msgSize : Nat)
    (origin myRank : Int) (envs : List MessageEnvelope)
    (hs : m.hasSize = true) (hr : m.hasReceiver = true) (hk : 1 ≤ elemSize)
    (hlen : ∀ e ∈ envs, ∀ x ∈ e.message, x.length = elemSize)
    (hfit : ∀ e ∈ envs, e.message.length * elemSize + m.size ≤ 2 ^ 64) :
    (envSerSplit m elemSize msgSize origin myRank
        (envs.foldl (envSerMerge m elemSize) [])).map (fun e => (e.message, e.receiver)) =
      envs.map (fun e => (e.message, e.receiver)) := by
  have hfold : envs.foldl (envSerMerge m elemSize) [] =
      (envs.map (envSerRecord m elemSize)).flatten := by
    simpa using foldl_merge_flatten (envSerMerge m elemSize) (envSerRecord m elemSize)
      (fun b e => rfl) envs []
  rw [hfold]
  unfold envSerSplit
  rw [hs]
  simp only [if_true]
  rw [chunksBES_flatten_records]
  · rw [List.map_map, List.map_map]
    apply List.map_congr_left
    intro e he
    obtain ⟨hm, hrc⟩ :=
      envSerSplitChunk_record m elemSize origin myRank e hs hr hk (hlen e he)
    simp [Function.comp, hm, hrc]
  · intro r hrmem
    obtain ⟨e, he, rfl⟩ := List.mem_map.mp hrmem
    have hL := envSerRecord_length m elemSize e (hlen e he)
    refine ⟨?_, ?_, ?_⟩
    · rw [hL]
      have := m.one_le_size hs
      omega
    · rw [hL]
      have := hfit e he
      omega
    · rw [envSerRecord_head m elemSize e hs, hL]
      push_cast
      ring

/-- Witness for C1: two envelopes with pair-valued payloads, metadata
{size, receiver}, round-trip through merge then split. -/
theorem envelope_serialization_roundtrip_witness :
    (envSerSplit ⟨true, false, true, false⟩ 2 0 7 8
        ([⟨[[1, 2]], 0, 3, 0⟩, ⟨[[4, 5], [6, 7]], 0, 5, 0⟩].foldl
          (envSerMerge ⟨true, false, true, false⟩ 2) [])).map
        (fun e => (e.message, e.receiver)) =
      ([⟨[[1, 2]], 0, 3, 0⟩, ⟨[[4, 5], [6, 7]], 0, 5, 0⟩] :
          List MessageEnvelope).map (fun e => (e.message, e.receiver)) :=
  envelope_serialization_roundtrip ⟨true, false, true, false⟩ 2 0 7 8
    [⟨[[1, 2]], 0, 3, 0⟩, ⟨[[4, 5], [6, 7]], 0, 5, 0⟩] rfl rfl (by omega)
    (by decide) (by decide)

/-- C3 counterexample: with all four metadata fields configured, the merger
writes the sender before the receiver.  The record for an envelope with
payload `[7]`, sender 5, receiver 9, tag 3 is `[4, 5, 9, 3, 7]` and not
`[4, 9, 5, 3, 7]`, the order `[size, receiver, sender, tag, payload]`
stated by the claim. -/
theorem envelope_record_order_counterexample :
    envSerMerge ⟨true, true, true, true⟩ 1 [] ⟨[[7]], 5, 9, 3⟩ = [4, 5, 9, 3, 7] ∧
    envSerMerge ⟨true, true, true, true⟩ 1 [] ⟨[[7]], 5, 9, 3⟩ ≠ [4, 9, 5, 3, 7] := by
  decide

/-- C3 (amended): when the metadata set contains the size field, the merger
appends exactly one record `[size, optional sender, optional receiver,
optional tag, payload…]`: the size field comes first and counts every
element after it up to the next record (the flattened payload plus the
other metadata fields present); the sender, when present, sits directly
after the size and before the receiver; the tag, when present, is the last
metadata field; the metadata is followed by the flattened payload. -/
theorem envelope_record_layout (m : EnvelopeMetadata) (k : Nat) (buf : List Int)
    (e : MessageEnvelope) (hs : m.hasSize = true)
    (hlen : ∀ x ∈ e.message, x.length = k) :
    envSerMerge m k buf e = buf ++ envSerRecord m k e ∧
    (envSerRecord m k e).length = m.size + e.message.length * k ∧
    (envSerRecord m k e).getD 0 0 = ((envSerRecord m k e).length : Int) - 1 ∧
    (m.hasSender = true → (envSerRecord m k e).getD 1 0 = e.sender) ∧
    (m.hasReceiver = true →
      (envSerRecord m k e).getD (if m.hasSender then 2 else 1) 0 = e.receiver) ∧
    (m.hasTag = true → (envSerRecord m k e).getD (m.size - 1) 0 = e.tag) ∧
    (envSerRecord m k e).drop m.size = e.message.flatten := by
  refine ⟨rfl, envSerRecord_length m k e hlen, ?_, ?_, ?_, ?_, ?_⟩
  · rw [envSerRecord_head m k e hs, envSerRecord_length m k e hlen]
    push_cast
    ring
  · intro hsd
    rcases m with ⟨s1, s2, s3, s4⟩
    simp only at hs hsd
    subst hs
    subst hsd
    cases s3 <;> cases s4 <;> simp [envSerRecord]
  · intro hrc
    rcases m with ⟨s1, s2, s3, s4⟩
    simp only at hs hrc
    subst hs
    subst hrc
    cases s2 <;> cases s4 <;> simp [envSerRecord]
  · intro htg
    rcases m with ⟨s1, s2, s3, s4⟩
    simp only at hs htg
    subst hs
    subst htg
    cases s2 <;> cases s3 <;> simp [envSerRecord, EnvelopeMetadata.size]
  · rcases m with ⟨s1, s2, s3, s4⟩
    simp only at hs
    subst hs
    cases s2 <;> cases s3 <;> cases s4 <;> simp [envSerRecord, EnvelopeMetadata.size]

/-- Witness for C3 (amended) at the full metadata set: position 1 of the
record holds the sender 5 and position 2 the receiver 9. -/
theorem envelope_record_layout_witness :
    (envSerRecord ⟨true, true, true, true⟩ 1 ⟨[[7]], 5, 9, 3⟩).getD 1 0 = 5 ∧
    (envSerRecord ⟨true, true, true, true⟩ 1 ⟨[[7]], 5, 9, 3⟩).getD 2 0 = 9 := by
  have h := envelope_record_layout ⟨true, true, true, true⟩ 1 [] ⟨[[7]], 5, 9, 3⟩ rfl
    (by decide)
  exact ⟨h.2.2.2.1 rfl, by simpa using h.2.2.2.2.1 rfl⟩

/-- C9: when the metadata field set of `EnvelopeSerializationSplitter`
omits the sender, every envelope it yields carries the transport-level
buffer origin (the last hop) as its sender, and when the tag field is
omitted the yielded tag is 0. -/
theorem splitter_metadata_defaults (m : EnvelopeMetadata) (elemSize msgSize : Nat)
    (origin myRank : Int) (buffer : List Int) :
    ∀ e ∈ envSerSplit m elemSize msgSize origin myRank buffer,
      (m.hasSender = false → e.sender = origin) ∧ (m.hasTag = false → e.tag = 0) := by
  intro e he
  unfold envSerSplit at he
  obtain ⟨c, hc, rfl⟩ := List.mem_map.mp he
  constructor
  · intro hsd
    simp [envSerSplitChunk, hsd]
  · intro htg
    simp [envSerSplitChunk, htg]

/-- Witness for C9: metadata {size, receiver}, one record in the buffer;
the yielded sender is the buffer origin 7 and the yielded tag is 0. -/
theorem splitter_metadata_defaults_witness :
    (envSerSplitChunk ⟨true, false, true, false⟩ 1 7 8 [2, 9, 4]).sender = 7 ∧
    (envSerSplitChunk ⟨true, false, true, false⟩ 1 7 8 [2, 9, 4]).tag = 0 := by
  have h := splitter_metadata_defaults ⟨true, false, true, false⟩ 1 0 7 8 [2, 9, 4]
    (envSerSplitChunk ⟨true, false, true, false⟩ 1 7 8 [2, 9, 4]) (by decide)
  exact ⟨h.1 rfl, h.2 rfl⟩

/-- An envelope with a scalar payload, as yielded by `SentinelSplitter`
(the sentinel codec handles only scalar message values). -/
structure ScalarEnvelope where
  message : List Int
  sender : Int
  receiver : Int
  tag : Int
  deriving DecidableEq

/-- `SentinelMerger::operator()` (`src/briefkasten/aggregators.hpp`, lines
64-82): append the message, then the sentinel. -/
def sentinelMerge (s : Int) (buffer : List Int) (msg : List Int) : List Int :=
  buffer ++ msg ++ [s]

/-- `SentinelMerger::estimate_new_buffer_size`:
`buffer.size() + envelope.message.size() + 1`. -/
def sentinelEstimate (buffer : List Int) (msg : List Int) : Nat :=
  buffer.length + msg.length + 1

/-- `SentinelSplitter::operator()` (`src/briefkasten/aggregators.hpp`,
lines 86-106): drop the final sentinel (`views::take(size - 1)`), split on
the sentinel, and wrap each piece in an envelope with the buffer origin as
sender, the local rank as receiver and tag 0. -/
def sentinelSplit (s origin myRank : Int) (buffer : List Int) : List ScalarEnvelope :=
  ((buffer.take (buffer.length - 1)).splitOn s).map
    (fun piece => ⟨piece, origin, myRank, 0⟩)

lemma intercalate_cons_cons_sentinel (s : Int) (a b : List Int) (t : List (List Int)) :
    [s].intercalate (a :: b :: t) = a ++ s :: [s].intercalate (b :: t) := by
  simp [List.intercalate, List.intersperse]

lemma flatten_map_append_sentinel (s : Int) (msgs : List (List Int)) (hne : msgs ≠ []) :
    (msgs.map (fun msg => msg ++ [s])).flatten = [s].intercalate msgs ++ [s] := by
  induction msgs with
  | nil => exact absurd rfl hne
  | cons a t ih =>
      cases t with
      | nil => simp [List.intercalate]
      | cons b t2 =>
          simp only [List.map_cons, List.flatten_cons] at ih ⊢
          rw [ih (by simp), intercalate_cons_cons_sentinel]
          simp

/-- C4: merging any nonempty sequence of sentinel-free messages into an
empty buffer with `SentinelMerger(s)` and splitting with
`SentinelSplitter(s)` yields exactly the original messages, one envelope
per message, in order, with no extra empty piece. -/
theorem sentinel_roundtrip (s origin myRank : Int) (msgs : List (List Int))
    (hne : msgs ≠ []) (hfree : ∀ msg ∈ msgs, s ∉ msg) :
    (sentinelSplit s origin myRank (msgs.foldl (sentinelMerge s) [])).map
      (fun e => e.message) = msgs := by
  have hfold : msgs.foldl (sentinelMerge s) [] =
      (msgs.map (fun msg => msg ++ [s])).flatten := by
    simpa using foldl_merge_flatten (sentinelMerge s) (fun msg => msg ++ [s])
      (fun b e => by simp [sentinelMerge]) msgs []
  rw [hfold, flatten_map_append_sentinel s msgs hne]
  unfold sentinelSplit
  have htake : (([s].intercalate msgs ++ [s]).take
      (([s].intercalate msgs ++ [s]).length - 1)) = [s].intercalate msgs := by
    rw [List.length_append]
    simp only [List.length_cons, List.length_nil]
    rw [Nat.add_sub_cancel]
    exact List.take_left _ _
  rw [htake, List.splitOn_intercalate msgs s hfree hne, List.map_map]
  have h2 : List.map ((fun (e : ScalarEnvelope) => e.message) ∘
      fun piece => (⟨piece, origin, myRank, 0⟩ : ScalarEnvelope)) msgs = List.map id msgs :=
    List.map_congr_left (fun a _ => rfl)
  rw [h2, List.map_id]

/-- Witness for C4: the messages `[1, 2]` and `[3]` with sentinel 0
round-trip through merge then split. -/
theorem sentinel_roundtrip_witness :
    (sentinelSplit 0 7 8 ([[1, 2], [3]].foldl (sentinelMerge 0) [])).map
      (fun e => e.message) = [[1, 2], [3]] :=
  sentinel_roundtrip 0 7 8 [[1, 2], [3]] (by decide) (by decide)

/-- `AppendMerger::operator()` (`src/briefkasten/aggregators.hpp`, lines
35-43): concatenate the (scalar) message onto the buffer, no framing. -/
def appendMerge (buffer : List Int) (msg : List Int) : List Int := buffer ++ msg

/-- `AppendMerger::estimate_new_buffer_size` (lines 44-51):
`buffer.size() + envelope.message.size()`. -/
def appendEstimate (buffer : List Int) (msg : List Int) : Nat :=
  buffer.length + msg.length

/-- Legacy `EnvelopeSerializationMerger::operator()` of namespace
`briefkasten::aggregation` (`src/briefkasten/aggregators.hpp`, lines
130-172): appends `[receiver, message.size() * elem_size, payload…]` with
the payload flattened. -/
def legacyEnvelopeMergeBk (elemSize : Nat) (buffer : List Int)
    (e : MessageEnvelope) : List Int :=
  buffer ++ [e.receiver, (e.message.length * elemSize : Int)] ++ e.message.flatten

/-- Legacy `EnvelopeSerializationMerger::estimate_new_buffer_size` of
`briefkasten::aggregation` (lines 173-179):
`buffer.size() + envelope.message.size() + 2`, with no element-cardinality
factor. -/
def legacyEnvelopeEstimateBk (buffer : List Int) (e : MessageEnvelope) : Nat :=
  buffer.length + e.message.length + 2

/-- `EnvelopeSerializationMerger::operator()` of namespace
`message_queue::aggregation` (`src/message-queue/aggregators.hpp`, lines
111-127), scalar payloads only: appends
`[receiver, message.size(), payload…]`. -/
def legacyEnvelopeMergeMq (buffer : List Int) (e : ScalarEnvelope) : List Int :=
  buffer ++ [e.receiver, (e.message.length : Int)] ++ e.message

lemma flatten_map_singleton (l : List Int) : (l.map (fun v => [v])).flatten = l := by
  induction l <;> simp [*]

/-- C5 counterexample: for the legacy briefkasten
`EnvelopeSerializationMerger` and a payload of a single pair, the estimate
is 3 elements but the merge appends 4: the estimate omits the
element-cardinality factor for tuple payloads. -/
theorem legacy_estimate_counterexample :
    legacyEnvelopeEstimateBk [] ⟨[[1, 2]], 0, 0, 0⟩ = 3 ∧
    (legacyEnvelopeMergeBk 2 [] ⟨[[1, 2]], 0, 0, 0⟩).length = 4 := by decide

/-- C5 (amended): `estimate_new_buffer_size` returns exactly the post-merge
element count for `AppendMerger`, `SentinelMerger` and the
metadata-configurable `EnvelopeSerializationMerger` (tuple payloads
included); the legacy briefkasten `EnvelopeSerializationMerger` estimate is
exact precisely on scalar payloads (element cardinality 1). -/
theorem estimate_new_buffer_size_exact (s : Int) (buffer msg : List Int)
    (m : EnvelopeMetadata) (k : Nat) (e : MessageEnvelope)
    (hlen : ∀ x ∈ e.message, x.length = k) :
    appendEstimate buffer msg = (appendMerge buffer msg).length ∧
    sentinelEstimate buffer msg = (sentinelMerge s buffer msg).length ∧
    envSerEstimate m k buffer e = (envSerMerge m k buffer e).length ∧
    (k = 1 →
      legacyEnvelopeEstimateBk buffer e = (legacyEnvelopeMergeBk k buffer e).length) := by
  refine ⟨?_, ?_, ?_, ?_⟩
  · simp [appendEstimate, appendMerge]
  · simp [sentinelEstimate, sentinelMerge]
    omega
  · unfold envSerEstimate envSerMerge
    rw [List.length_append, envSerRecord_length m k e hlen]
    omega
  · intro hk1
    subst hk1
    unfold legacyEnvelopeEstimateBk legacyEnvelopeMergeBk
    simp [flatten_length_uniform 1 _ hlen]
    omega

/-- Witness for C5 (amended) on concrete inputs for all four mergers. -/
theorem estimate_new_buffer_size_exact_witness :
    appendEstimate [9] [1, 2] = (appendMerge [9] [1, 2]).length ∧
    sentinelEstimate [9] [1, 2] = (sentinelMerge 0 [9] [1, 2]).length ∧
    envSerEstimate ⟨true, false, true, false⟩ 1 [9] ⟨[[4]], 0, 2, 0⟩ =
      (envSerMerge ⟨true, false, true, false⟩ 1 [9] ⟨[[4]], 0, 2, 0⟩).length ∧
    legacyEnvelopeEstimateBk [9] ⟨[[4]], 0, 2, 0⟩ =
      (legacyEnvelopeMergeBk 1 [9] ⟨[[4]], 0, 2, 0⟩).length := by
  have h := estimate_new_buffer_size_exact 0 [9] [1, 2] ⟨true, false, true, false⟩ 1
    ⟨[[4]], 0, 2, 0⟩ (by decide)
  exact ⟨h.1, h.2.1, h.2.2.1, h.2.2.2 rfl⟩

/-- C10: on scalar messages (each represented by the singleton list of its
one field) the legacy envelope mergers of namespaces
`briefkasten::aggregation` and `message_queue::aggregation` append the same
element sequence `[receiver, size, payload…]` to the buffer. -/
theorem legacy_envelope_mergers_agree_on_scalars (buffer : List Int) (e : ScalarEnvelope) :
    legacyEnvelopeMergeBk 1 buffer
        ⟨e.message.map (fun v => [v]), e.sender, e.receiver, e.tag⟩ =
      legacyEnvelopeMergeMq buffer e := by
  unfold legacyEnvelopeMergeBk legacyEnvelopeMergeMq
  simp [flatten_map_singleton]

/-- `NoopIndirectionScheme::next_hop`
(`src/message-queue/noop_indirection.hpp`, lines 34-36): the receiver
itself. -/
def noopNextHop (sender receiver : Int) : Int := receiver

/-- `NoopIndirectionScheme::should_redirect` (lines 37-39): redirect iff
the embedded receiver differs from the local rank. -/
def noopShouldRedirect (myRank sender receiver : Int) : Bool := receiver != myRank

/-- `TopologyAwareIndirectionScheme::next_hop`
(`src/briefkasten/topology_aware_indirection.hpp`, lines 34-36): the
receiver itself. -/
def topoAwareNextHop (sender receiver : Int) : Int := receiver

/-- `TopologyAwareIndirectionScheme::should_redirect` (lines 38-40):
compares the embedded receiver against `comm_.size_signed()` — the
communicator size, the same value on every rank — not against the local
rank. -/
def topoAwareShouldRedirect (commSize sender receiver : Int) : Bool := receiver != commSize

/-- C6 (code bug, evaluated at the failing input): with P = 2 and a message
for receiver 1 arriving at rank 1, the Noop scheme delivers locally
(`should_redirect` is false), but the TopologyAware scheme reports
`should_redirect` true — as it does on every rank for every valid receiver,
since a receiver in [0, P) never equals the communicator size P — so the
envelope would be re-posted forever instead of delivered. -/
theorem topology_aware_redirect_bug :
    noopNextHop 0 1 = 1 ∧ topoAwareNextHop 0 1 = 1 ∧
    noopShouldRedirect 1 0 1 = false ∧
    topoAwareShouldRedirect 2 0 1 = true := by decide

/-- Modelled from the spec: the raw queue, the buffered layer and the
termination detector (§4.3, §4.3.1, §4.4) are not among the source files
under verification — only the codecs and schemes they plug in are — so the
counter state machine is taken from the specification's words.  Per-rank
state: the raw send counter `S_r` (one increment per transport send, i.e.
per buffer flush), the receive counter `R_r` (one increment per delivered
transport payload) and the total size of the rank's pending send buffers;
globally, the number of transport payloads posted but not yet delivered. -/
structure QueueState (P : Nat) where
  sent : Fin P → Nat
  received : Fin P → Nat
  buffered : Fin P → Nat
  inflight : Nat

/-- Modelled from the spec: the events of the message-passing system.
`post` merges a logical message into a send buffer of rank `r`; `flush`
hands a nonempty buffer of rank `r` to the transport (one raw send:
`S_r` increments, one more payload in flight); `deliver` completes a
receive on rank `r` (`R_r` increments, one payload fewer in flight). -/
inductive QueueStep (P : Nat) : QueueState P → QueueState P → Prop
  | post (r : Fin P) (σ : QueueState P) :
      QueueStep P σ { σ with buffered := Function.update σ.buffered r (σ.buffered r + 1) }
  | flush (r : Fin P) (σ : QueueState P) (h : 0 < σ.buffered r) :
      QueueStep P σ { σ with
        buffered := Function.update σ.buffered r 0,
        sent := Function.update σ.sent r (σ.sent r + 1),
        inflight := σ.inflight + 1 }
  | deliver (r : Fin P) (σ : QueueState P) (h : 0 < σ.inflight) :
      QueueStep P σ { σ with
        received := Function.update σ.received r (σ.received r + 1),
        inflight := σ.inflight - 1 }

/-- The initial state: all counters zero, empty buffers, nothing in
flight. -/
def initState (P : Nat) : QueueState P := ⟨fun _ => 0, fun _ => 0, fun _ => 0, 0⟩

/-- Modelled from the spec: a deliver-only step — the only event the
§4.3.1 guard "no new send was posted locally between snapshot and
reduction completion" admits on any rank between the barrier snapshot and
the terminate decision (a user-level post or a flush would trip the guard
on its rank, making `terminate` return false). -/
inductive DeliverStep (P : Nat) : QueueState P → QueueState P → Prop
  | deliver (r : Fin P) (σ : QueueState P) (h : 0 < σ.inflight) :
      DeliverStep P σ { σ with
        received := Function.update σ.received r (σ.received r + 1),
        inflight := σ.inflight - 1 }

lemma sum_update_add {P : Nat} (f : Fin P → Nat) (r : Fin P) (n : Nat) :
    ∑ x, Function.update f r (f r + n) x = (∑ x, f x) + n := by
  rw [Finset.sum_update_of_mem (Finset.mem_univ r), Finset.sdiff_singleton_eq_erase]
  have h2 := Finset.add_sum_erase Finset.univ f (Finset.mem_univ r)
  omega

/-- In every reachable state the summed send counters equal the summed
receive counters plus the number of payloads in flight (the conservation
invariant behind the two-wave protocol). -/
lemma counter_invariant (P : Nat) (σ : QueueState P)
    (h : Relation.ReflTransGen (QueueStep P) (initState P) σ) :
    ∑ r, σ.sent r = (∑ r, σ.received r) + σ.inflight := by
  induction h with
  | refl => simp [initState]
  | tail hab hbc ih =>
      cases hbc with
      | post r τ => simpa using ih
      | flush r τ hb =>
          simp only []
          rw [sum_update_add]
          omega
      | deliver r τ hb =>
          simp only []
          rw [sum_update_add]
          omega

lemma deliver_only_fixes (P : Nat) (σ τ : QueueState P)
    (h : Relation.ReflTransGen (DeliverStep P) σ τ) (h0 : σ.inflight = 0) : τ = σ := by
  induction h with
  | refl => rfl
  | tail hab hbc ih =>
      cases hbc with
      | deliver r b hb =>
          rw [ih, h0] at hb
          exact absurd hb (by omega)

/-- C2: soundness of the terminate decision.  If on every rank the local
drain and flush-all has emptied the send buffers before the barrier
snapshot `σ`, the reduction over the snapshots says the summed send
counters equal the summed receive counters, and no new send was posted on
any rank between the snapshot and the decision point `τ` (only deliveries
occurred — the §4.3.1 guard), then at the decision point global quiescence
holds: the summed counters are equal, no message is in flight on any rank,
and no send buffer is non-empty on any rank. -/
theorem termination_soundness (P : Nat) (σ τ : QueueState P)
    (hreach : Relation.ReflTransGen (QueueStep P) (initState P) σ)
    (hflushed : ∀ r, σ.buffered r = 0)
    (hguard : Relation.ReflTransGen (DeliverStep P) σ τ)
    (hdecide : ∑ r, σ.sent r = ∑ r, σ.received r) :
    (∑ r, τ.sent r = ∑ r, τ.received r) ∧ τ.inflight = 0 ∧ ∀ r, τ.buffered r = 0 := by
  have hinv := counter_invariant P σ hreach
  have h0 : σ.inflight = 0 := by omega
  have hfix := deliver_only_fixes P σ τ hguard h0
  subst hfix
  exact ⟨hdecide, h0, hflushed⟩

/-- Witness for C2: the one-rank system in its initial state satisfies the
terminate preconditions and is quiescent. -/
theorem termination_soundness_witness :
    (∑ r, (initState 1).sent r = ∑ r, (initState 1).received r) ∧
    (initState 1).inflight = 0 ∧ ∀ r, (initState 1).buffered r = 0 :=
  termination_soundness 1 (initState 1) (initState 1) Relation.ReflTransGen.refl
    (fun r => rfl) Relation.ReflTransGen.refl rfl
